import Mathlib

/-!
Verification of the fallback minimax search engine of the chess repository
(src/ai.py, class ChessAI).  The chess rules library (python-chess) is an
external black box per the specification; it is modelled by the abstract
interface `Game` below, which exposes exactly the capability surface the
search uses: legal-move enumeration, push/pop, side to move, terminal
queries, capture test and piece placement.  The `height` field together
with `height_lt` models the fact that real chess games end after a bounded
number of plies (seventy-five-move rule, checked by is_game_over), which is
what makes the Python recursion terminate; it is used only as a fuel bound.
-/

/-- Scores are Python floats as used by ai.py: integer material sums plus
the sentinels float('-inf') and float('inf'). -/
inductive Score where
  | negInf : Score
  | val : Int → Score
  | posInf : Score
deriving DecidableEq

/-- Order-embedding of `Score` into `WithBot (WithTop Int)`, used to equip
`Score` with the (decidable) linear order of IEEE comparisons on these
values. -/
def Score.toE : Score → WithBot (WithTop Int)
  | Score.negInf => ⊥
  | Score.val n => ((n : WithTop Int) : WithBot (WithTop Int))
  | Score.posInf => ((⊤ : WithTop Int) : WithBot (WithTop Int))

theorem Score.toE_injective : Function.Injective Score.toE := by
  intro a b h
  cases a <;> cases b <;> simp_all [Score.toE]

instance : LinearOrder Score := LinearOrder.lift' Score.toE Score.toE_injective

theorem Score.negInf_le (a : Score) : Score.negInf ≤ a := by
  show Score.toE Score.negInf ≤ Score.toE a
  exact bot_le

theorem Score.le_posInf (a : Score) : a ≤ Score.posInf := by
  show Score.toE a ≤ Score.toE Score.posInf
  cases a <;> simp [Score.toE]

theorem Score.le_negInf_iff (a : Score) : a ≤ Score.negInf ↔ a = Score.negInf := by
  constructor
  · intro h
    exact le_antisymm h (Score.negInf_le a)
  · intro h; rw [h]

theorem Score.posInf_le_iff (a : Score) : Score.posInf ≤ a ↔ a = Score.posInf := by
  constructor
  · intro h
    exact le_antisymm (Score.le_posInf a) h
  · intro h; rw [h]

theorem Score.negInf_lt_posInf : Score.negInf < Score.posInf := by
  refine lt_of_le_of_ne (Score.negInf_le _) ?h
  intro h
  cases h

/-- The six chess piece types (chess.PAWN .. chess.KING). -/
inductive PieceType where
  | pawn | knight | bishop | rook | queen | king
deriving DecidableEq

/-- A piece as returned by board.piece_at: a type and a color
(true = chess.WHITE). -/
structure Piece where
  ptype : PieceType
  color : Bool
deriving DecidableEq

/-- PIECE_VALUES from src/ai.py lines 18-25. -/
def PIECE_VALUES : PieceType → Int
  | PieceType.pawn => 100
  | PieceType.knight => 320
  | PieceType.bishop => 330
  | PieceType.rook => 500
  | PieceType.queen => 900
  | PieceType.king => 20000

/-- The capability surface the search requires from the external chess
rules library (spec section 6).  `push` is the pure transition underlying
board.push; `height b` bounds the number of plies playable from `b` before
is_game_over holds (finite for chess by the seventy-five-move rule), and
`height_lt` states that playing a legal move from a non-terminal position
strictly decreases that bound. -/
structure Game where
  Board : Type
  Move : Type
  legalMoves : Board → List Move
  turn : Board → Bool
  push : Board → Move → Board
  isGameOver : Board → Bool
  isCheckmate : Board → Bool
  isStalemate : Board → Bool
  isInsufficientMaterial : Board → Bool
  isCapture : Board → Move → Bool
  pieceAt : Board → Fin 64 → Option Piece
  height : Board → Nat
  height_lt : ∀ b m, isGameOver b = false → m ∈ legalMoves b →
    height (push b m) < height b

/-- The material loop of ChessAI._evaluate (src/ai.py lines 206-216):
iterate over the 64 squares, adding the piece value for White pieces and
subtracting it for Black pieces. -/
def materialScore (g : Game) (b : g.Board) : Int :=
  (List.finRange 64).foldl
    (fun score sq =>
      match g.pieceAt b sq with
      | none => score
      | some piece =>
        if piece.color then score + PIECE_VALUES piece.ptype
        else score - PIECE_VALUES piece.ptype)
    0

/-- ChessAI._evaluate (src/ai.py lines 199-216). -/
def evaluate (g : Game) (b : g.Board) : Score :=
  if g.isCheckmate b then
    (if g.turn b then Score.negInf else Score.posInf)
  else if g.isStalemate b || g.isInsufficientMaterial b then
    Score.val 0
  else
    Score.val (materialScore g b)

/-- The root move ordering of _minimax_root (src/ai.py line 148):
legal_moves.sort(key=lambda m: board.is_capture(m), reverse=True).
Python's sort is stable also with reverse=True, so the result is the
captures in their original order followed by the non-captures in their
original order. -/
def sortCapturesFirst (g : Game) (b : g.Board) (ms : List g.Move) : List g.Move :=
  ms.filter (fun m => g.isCapture b m) ++ ms.filter (fun m => !g.isCapture b m)

/-- The mutable state the Python search operates on: the chess.Board object
(current position `cur` plus the undo stack `hist` that board.push grows
and board.pop consumes) together with the ChessAI.positions_evaluated
counter. -/
structure SearchState (g : Game) where
  cur : g.Board
  hist : List g.Board
  counter : Nat

/-- board.push(move): apply the move in place, saving the previous position
on the undo stack. -/
def SearchState.push (g : Game) (s : SearchState g) (m : g.Move) : SearchState g :=
  { cur := g.push s.cur m, hist := s.cur :: s.hist, counter := s.counter }

/-- board.pop(): restore the most recently pushed position.  (python-chess
raises on an empty stack; the search never pops an empty stack, which the
state-restoration lemmas below make precise, so the empty case is modelled
as the identity.) -/
def SearchState.pop (g : Game) (s : SearchState g) : SearchState g :=
  match s.hist with
  | [] => s
  | h :: t => { cur := h, hist := t, counter := s.counter }

/-- The maximizing branch of the loop in ChessAI._minimax (src/ai.py lines
177-186), value/count only.  `recP m a` is the recursive call on the child
reached by `m` with current alpha `a` (beta is fixed for the whole loop);
it returns the child value and the number of evaluations it performed.
The accumulators are max_eval, alpha and the evaluation count; the loop
stops early as soon as beta <= alpha (the pruning cutoff). -/
def maxLoopP {M : Type} (recP : M → Score → Score × Nat) (beta : Score) :
    List M → Score → Score → Nat → Score × Nat
  | [], maxEval, _, cnt => (maxEval, cnt)
  | m :: rest, maxEval, alpha, cnt =>
    let r := recP m alpha
    let maxEval' := max maxEval r.1
    let alpha' := max alpha r.1
    let cnt' := cnt + r.2
    if beta ≤ alpha' then (maxEval', cnt')
    else maxLoopP recP beta rest maxEval' alpha' cnt'

/-- The minimizing branch of the loop in ChessAI._minimax (src/ai.py lines
188-197), value/count only; alpha is fixed, beta is the running
accumulator. -/
def minLoopP {M : Type} (recP : M → Score → Score × Nat) (alpha : Score) :
    List M → Score → Score → Nat → Score × Nat
  | [], minEval, _, cnt => (minEval, cnt)
  | m :: rest, minEval, beta, cnt =>
    let r := recP m beta
    let minEval' := min minEval r.1
    let beta' := min beta r.1
    let cnt' := cnt + r.2
    if beta' ≤ alpha then (minEval', cnt')
    else minLoopP recP alpha rest minEval' beta' cnt'

/-- ChessAI._minimax (src/ai.py lines 166-197), presented as a pure
function of the board returning the computed value together with the
number of positions evaluated (the amount the positions_evaluated counter
grows by).  The Nat fuel argument is a termination device only: the
recursion of the Python code is driven by depth reaching 0 or the position
becoming terminal, and `minimaxS_char`/the height bound show the fuel
branch is never taken when the fuel exceeds `g.height` of the board. -/
def abEval (g : Game) : Nat → g.Board → Int → Score → Score → Bool → Score × Nat
  | 0, _, _, _, _, _ => (Score.val 0, 0)
  | fuel + 1, b, depth, alpha, beta, maximizing =>
    if depth = 0 ∨ g.isGameOver b = true then (evaluate g b, 1)
    else if maximizing then
      maxLoopP (fun m a => abEval g fuel (g.push b m) (depth - 1) a beta false)
        beta (g.legalMoves b) Score.negInf alpha 1
    else
      minLoopP (fun m bt => abEval g fuel (g.push b m) (depth - 1) alpha bt true)
        alpha (g.legalMoves b) Score.posInf beta 1

/-- Modelled from the spec: the exhaustive, non-pruned minimax search of
the same depth ("the move and value returned by the alpha-beta search at
any depth must equal the move and value returned by an exhaustive
(non-pruned) minimax search to the same depth").  It is ChessAI._minimax
with the alpha-beta window and the beta <= alpha cutoff removed: at a
maximizing node the fold keeps every child, likewise at a minimizing
node. -/
def npVal (g : Game) : Nat → g.Board → Int → Bool → Score
  | 0, _, _, _ => Score.val 0
  | fuel + 1, b, depth, maximizing =>
    if depth = 0 ∨ g.isGameOver b = true then evaluate g b
    else if maximizing then
      (g.legalMoves b).foldl
        (fun acc m => max acc (npVal g fuel (g.push b m) (depth - 1) false))
        Score.negInf
    else
      (g.legalMoves b).foldl
        (fun acc m => min acc (npVal g fuel (g.push b m) (depth - 1) true))
        Score.posInf

/-- The maximizing branch of the loop in ChessAI._minimax, operating on the
mutable state exactly as the Python code does: board.push(move), recursive
call, board.pop(), fold into max_eval/alpha, break on beta <= alpha.
`recS st a` is the recursive call on state `st` with current alpha `a`. -/
def maxLoopS (g : Game) (recS : SearchState g → Score → Score × SearchState g)
    (beta : Score) :
    List g.Move → Score → Score → SearchState g → Score × SearchState g
  | [], maxEval, _, st => (maxEval, st)
  | m :: rest, maxEval, alpha, st =>
    let r := recS (SearchState.push g st m) alpha
    let st' := SearchState.pop g r.2
    let maxEval' := max maxEval r.1
    let alpha' := max alpha r.1
    if beta ≤ alpha' then (maxEval', st')
    else maxLoopS g recS beta rest maxEval' alpha' st'

/-- The minimizing branch of the loop in ChessAI._minimax, on the mutable
state. -/
def minLoopS (g : Game) (recS : SearchState g → Score → Score × SearchState g)
    (alpha : Score) :
    List g.Move → Score → Score → SearchState g → Score × SearchState g
  | [], minEval, _, st => (minEval, st)
  | m :: rest, minEval, beta, st =>
    let r := recS (SearchState.push g st m) beta
    let st' := SearchState.pop g r.2
    let minEval' := min minEval r.1
    let beta' := min beta r.1
    if beta' ≤ alpha then (minEval', st')
    else minLoopS g recS alpha rest minEval' beta' st'

/-- ChessAI._minimax (src/ai.py lines 166-197), the embedding of the
stateful Python code: it increments positions_evaluated on entry, returns
the static evaluation when depth == 0 or the position is terminal, and
otherwise runs the maximizing or minimizing alpha-beta loop over the legal
moves, pushing and popping each move on the board.  The Nat fuel is a
termination device only (see `abEval`). -/
def minimaxS (g : Game) :
    Nat → SearchState g → Int → Score → Score → Bool → Score × SearchState g
  | 0, s, _, _, _, _ => (Score.val 0, s)
  | fuel + 1, s, depth, alpha, beta, maximizing =>
    let s1 : SearchState g := { s with counter := s.counter + 1 }
    if depth = 0 ∨ g.isGameOver s1.cur = true then (evaluate g s1.cur, s1)
    else if maximizing then
      maxLoopS g (fun st a => minimaxS g fuel st (depth - 1) a beta false)
        beta (g.legalMoves s1.cur) Score.negInf alpha s1
    else
      minLoopS g (fun st bt => minimaxS g fuel st (depth - 1) alpha bt true)
        alpha (g.legalMoves s1.cur) Score.posInf beta s1

/-- The root call of _minimax_root on the child reached by `m`
(src/ai.py line 152): _minimax(board, depth - 1, float('-inf'),
float('inf'), not board.turn), evaluated after board.push(move), so
board.turn in the flag argument is the side to move of the child.
Presented on the pure value/count function; the fuel exceeds the height
bound of the child so the fuel branch is never taken. -/
def rootChildEval (g : Game) (c : g.Board) (depth : Int) (m : g.Move) :
    Score × Nat :=
  abEval g (g.height (g.push c m) + 1) (g.push c m) (depth - 1)
    Score.negInf Score.posInf (!g.turn (g.push c m))

/-- The value component of `rootChildEval`. -/
def rootChildValue (g : Game) (c : g.Board) (depth : Int) (m : g.Move) : Score :=
  (rootChildEval g c depth m).1

/-- The loop of ChessAI._minimax_root (src/ai.py lines 150-162), value and
count only: for each move, evaluate the child with a full window, then keep
the move if its value strictly improves best_value (maximum when it is
White's turn at the root, minimum otherwise). -/
def rootLoopP (g : Game) (c : g.Board) (depth : Int) :
    List g.Move → Option g.Move → Score → Nat → Option g.Move × Score × Nat
  | [], bestMove, bestValue, cnt => (bestMove, bestValue, cnt)
  | m :: rest, bestMove, bestValue, cnt =>
    let r := rootChildEval g c depth m
    let cnt' := cnt + r.2
    if g.turn c then
      if r.1 > bestValue then rootLoopP g c depth rest (some m) r.1 cnt'
      else rootLoopP g c depth rest bestMove bestValue cnt'
    else
      if r.1 < bestValue then rootLoopP g c depth rest (some m) r.1 cnt'
      else rootLoopP g c depth rest bestMove bestValue cnt'

/-- ChessAI._minimax_root (src/ai.py lines 139-164) as a pure function:
returns the selected move (None when there is no legal move), the final
best_value, and the number of evaluations performed.  The Python function
returns only the move; the other two components expose the internal
best_value and the growth of positions_evaluated for specification
purposes. -/
def minimaxRootP (g : Game) (c : g.Board) (depth : Int) :
    Option g.Move × Score × Nat :=
  let legal := g.legalMoves c
  if legal.isEmpty then
    (none, (if g.turn c then Score.negInf else Score.posInf), 0)
  else
    rootLoopP g c depth (sortCapturesFirst g c legal) none
      (if g.turn c then Score.negInf else Score.posInf) 0

/-- The loop of ChessAI._minimax_root on the mutable state, exactly as the
Python code runs it: push the move, call _minimax with a full window and
maximizing = not board.turn (read from the board after the push), pop, and
compare using board.turn read from the restored board. -/
def rootLoopS (g : Game) (depth : Int) :
    List g.Move → Option g.Move → Score → SearchState g →
      Option g.Move × Score × SearchState g
  | [], bestMove, bestValue, st => (bestMove, bestValue, st)
  | m :: rest, bestMove, bestValue, st =>
    let pushed := SearchState.push g st m
    let r := minimaxS g (g.height pushed.cur + 1) pushed (depth - 1)
      Score.negInf Score.posInf (!g.turn pushed.cur)
    let st' := SearchState.pop g r.2
    if g.turn st'.cur then
      if r.1 > bestValue then rootLoopS g depth rest (some m) r.1 st'
      else rootLoopS g depth rest bestMove bestValue st'
    else
      if r.1 < bestValue then rootLoopS g depth rest (some m) r.1 st'
      else rootLoopS g depth rest bestMove bestValue st'

/-- ChessAI._minimax_root (src/ai.py lines 139-164), the embedding of the
stateful Python code: if there is no legal move return None at once,
otherwise start best_value at -infinity when it is White's turn
(+infinity for Black), sort the legal moves captures first, and run the
selection loop.  The Python function returns only the move (first
component). -/
def minimaxRootS (g : Game) (s : SearchState g) (depth : Int) :
    Option g.Move × Score × SearchState g :=
  let legal := g.legalMoves s.cur
  if legal.isEmpty then
    (none, (if g.turn s.cur then Score.negInf else Score.posInf), s)
  else
    rootLoopS g depth (sortCapturesFirst g s.cur legal) none
      (if g.turn s.cur then Score.negInf else Score.posInf) s

/-- The fallback path of ChessAI.get_best_move (src/ai.py lines 81-94 and
135-137): reset positions_evaluated to 0, then _minimax_root with
depth=3. -/
def getBestMoveFallback (g : Game) (s : SearchState g) :
    Option g.Move × SearchState g :=
  let s0 : SearchState g := { s with counter := 0 }
  let r := minimaxRootS g s0 3
  (r.1, r.2.2)

/-- Modelled from the spec: the root selection loop of the exhaustive,
non-pruned minimax search ("an exhaustive (non-pruned) minimax search to
the same depth"): identical to the alpha-beta root loop, but each child is
valued by the non-pruned `npVal` instead of the pruned search. -/
def rootLoopNP (g : Game) (c : g.Board) (depth : Int) :
    List g.Move → Option g.Move → Score → Option g.Move × Score
  | [], bestMove, bestValue => (bestMove, bestValue)
  | m :: rest, bestMove, bestValue =>
    let v := npVal g (g.height (g.push c m) + 1) (g.push c m) (depth - 1)
      (!g.turn (g.push c m))
    if g.turn c then
      if v > bestValue then rootLoopNP g c depth rest (some m) v
      else rootLoopNP g c depth rest bestMove bestValue
    else
      if v < bestValue then rootLoopNP g c depth rest (some m) v
      else rootLoopNP g c depth rest bestMove bestValue

/-- Modelled from the spec: the exhaustive, non-pruned minimax search at
the root, returning the selected move and its value. -/
def minimaxRootNP (g : Game) (c : g.Board) (depth : Int) :
    Option g.Move × Score :=
  let legal := g.legalMoves c
  if legal.isEmpty then
    (none, (if g.turn c then Score.negInf else Score.posInf))
  else
    rootLoopNP g c depth (sortCapturesFirst g c legal) none
      (if g.turn c then Score.negInf else Score.posInf)

/-- Modelled from the spec: the root selection loop of a minimax search
whose maximizing/minimizing flag is synchronized with whose turn it is in
the board ("a maximizing/minimizing flag synchronized with whose turn it
is in the board"): each child is searched with the flag equal to the side
to move of that child, instead of the flag `not board.turn` that the code
computes after the push. -/
def rootLoopSynced (g : Game) (c : g.Board) (depth : Int) :
    List g.Move → Option g.Move → Score → Option g.Move × Score
  | [], bestMove, bestValue => (bestMove, bestValue)
  | m :: rest, bestMove, bestValue =>
    let v := npVal g (g.height (g.push c m) + 1) (g.push c m) (depth - 1)
      (g.turn (g.push c m))
    if g.turn c then
      if v > bestValue then rootLoopSynced g c depth rest (some m) v
      else rootLoopSynced g c depth rest bestMove bestValue
    else
      if v < bestValue then rootLoopSynced g c depth rest (some m) v
      else rootLoopSynced g c depth rest bestMove bestValue

/-- Modelled from the spec: root minimax search with the flag synchronized
with the side to move at every node (the behavior claim C2 asserts of the
code). -/
def minimaxRootSynced (g : Game) (c : g.Board) (depth : Int) :
    Option g.Move × Score :=
  let legal := g.legalMoves c
  if legal.isEmpty then
    (none, (if g.turn c then Score.negInf else Score.posInf))
  else
    rootLoopSynced g c depth (sortCapturesFirst g c legal) none
      (if g.turn c then Score.negInf else Score.posInf)

theorem maxLoopP_cnt {M : Type} (recP : M → Score → Score × Nat) (beta : Score)
    (ms : List M) : ∀ (me a : Score) (cnt : Nat),
      maxLoopP recP beta ms me a cnt
        = ((maxLoopP recP beta ms me a 0).1, cnt + (maxLoopP recP beta ms me a 0).2) := by
  induction ms with
  | nil => intro me a cnt; simp [maxLoopP]
  | cons m rest ih =>
    intro me a cnt
    simp only [maxLoopP]
    split
    · simp
    · rw [ih (max me (recP m a).1) (max a (recP m a).1) (cnt + (recP m a).2),
        ih (max me (recP m a).1) (max a (recP m a).1) (0 + (recP m a).2)]
      simp only [Prod.mk.injEq, true_and]
      omega

theorem minLoopP_cnt {M : Type} (recP : M → Score → Score × Nat) (alpha : Score)
    (ms : List M) : ∀ (me b : Score) (cnt : Nat),
      minLoopP recP alpha ms me b cnt
        = ((minLoopP recP alpha ms me b 0).1, cnt + (minLoopP recP alpha ms me b 0).2) := by
  induction ms with
  | nil => intro me b cnt; simp [minLoopP]
  | cons m rest ih =>
    intro me b cnt
    simp only [minLoopP]
    split
    · simp
    · rw [ih (min me (recP m b).1) (min b (recP m b).1) (cnt + (recP m b).2),
        ih (min me (recP m b).1) (min b (recP m b).1) (0 + (recP m b).2)]
      simp only [Prod.mk.injEq, true_and]
      omega

theorem maxLoopS_char (g : Game) (recS : SearchState g → Score → Score × SearchState g)
    (recP : g.Move → Score → Score × Nat) (beta : Score) (c : g.Board)
    (hrec : ∀ (hh : List g.Board) (kk : Nat) (m : g.Move) (a : Score),
      recS (SearchState.mk (g.push c m) (c :: hh) kk) a
        = ((recP m a).1, SearchState.mk (g.push c m) (c :: hh) (kk + (recP m a).2)))
    (ms : List g.Move) : ∀ (me a : Score) (h : List g.Board) (k : Nat),
      maxLoopS g recS beta ms me a (SearchState.mk c h k)
        = ((maxLoopP recP beta ms me a k).1,
           SearchState.mk c h (maxLoopP recP beta ms me a k).2) := by
  induction ms with
  | nil => intro me a h k; simp [maxLoopS, maxLoopP]
  | cons m rest ih =>
    intro me a h k
    simp only [maxLoopS, maxLoopP, SearchState.push, hrec h k m a, SearchState.pop]
    split
    · rfl
    · exact ih (max me (recP m a).1) (max a (recP m a).1) h (k + (recP m a).2)

theorem minLoopS_char (g : Game) (recS : SearchState g → Score → Score × SearchState g)
    (recP : g.Move → Score → Score × Nat) (alpha : Score) (c : g.Board)
    (hrec : ∀ (hh : List g.Board) (kk : Nat) (m : g.Move) (bt : Score),
      recS (SearchState.mk (g.push c m) (c :: hh) kk) bt
        = ((recP m bt).1, SearchState.mk (g.push c m) (c :: hh) (kk + (recP m bt).2)))
    (ms : List g.Move) : ∀ (me b : Score) (h : List g.Board) (k : Nat),
      minLoopS g recS alpha ms me b (SearchState.mk c h k)
        = ((minLoopP recP alpha ms me b k).1,
           SearchState.mk c h (minLoopP recP alpha ms me b k).2) := by
  induction ms with
  | nil => intro me b h k; simp [minLoopS, minLoopP]
  | cons m rest ih =>
    intro me b h k
    simp only [minLoopS, minLoopP, SearchState.push, hrec h k m b, SearchState.pop]
    split
    · rfl
    · exact ih (min me (recP m b).1) (min b (recP m b).1) h (k + (recP m b).2)

/-- The stateful _minimax is the pure value/count function plus a counter
increment: it restores the board (same `cur`, same undo stack) and grows
positions_evaluated by exactly the number of evaluations performed. -/
theorem minimaxS_char (g : Game) : ∀ (fuel : Nat) (c : g.Board)
    (h : List g.Board) (k : Nat) (depth : Int) (alpha beta : Score)
    (mx : Bool),
    minimaxS g fuel (SearchState.mk c h k) depth alpha beta mx
      = ((abEval g fuel c depth alpha beta mx).1,
         SearchState.mk c h (k + (abEval g fuel c depth alpha beta mx).2)) := by
  intro fuel
  induction fuel with
  | zero => intro c h k depth alpha beta mx; simp [minimaxS, abEval]
  | succ fuel ih =>
    intro c h k depth alpha beta mx
    simp only [minimaxS, abEval]
    split
    · rfl
    · split
      · rw [maxLoopS_char g _ (fun m a => abEval g fuel (g.push c m) (depth - 1) a beta false)
          beta c (fun hh kk m a => ih (g.push c m) (c :: hh) kk (depth - 1) a beta false)
          (g.legalMoves c) Score.negInf alpha h (k + 1)]
        rw [maxLoopP_cnt _ beta (g.legalMoves c) Score.negInf alpha (k + 1),
          maxLoopP_cnt _ beta (g.legalMoves c) Score.negInf alpha 1]
        simp only [Prod.mk.injEq, SearchState.mk.injEq, true_and]
        omega
      · rw [minLoopS_char g _ (fun m bt => abEval g fuel (g.push c m) (depth - 1) alpha bt true)
          alpha c (fun hh kk m bt => ih (g.push c m) (c :: hh) kk (depth - 1) alpha bt true)
          (g.legalMoves c) Score.posInf beta h (k + 1)]
        rw [minLoopP_cnt _ alpha (g.legalMoves c) Score.posInf beta (k + 1),
          minLoopP_cnt _ alpha (g.legalMoves c) Score.posInf beta 1]
        simp only [Prod.mk.injEq, SearchState.mk.injEq, true_and]
        omega

theorem rootLoopP_cnt (g : Game) (c : g.Board) (depth : Int)
    (ms : List g.Move) : ∀ (bm : Option g.Move) (bv : Score) (cnt : Nat),
      rootLoopP g c depth ms bm bv cnt
        = ((rootLoopP g c depth ms bm bv 0).1,
           (rootLoopP g c depth ms bm bv 0).2.1,
           cnt + (rootLoopP g c depth ms bm bv 0).2.2) := by
  induction ms with
  | nil => intro bm bv cnt; simp [rootLoopP]
  | cons m rest ih =>
    intro bm bv cnt
    simp only [rootLoopP]
    split <;> split <;>
      (rw [ih, ih _ _ (0 + (rootChildEval g c depth m).2)]
       simp only [Prod.mk.injEq, true_and]
       omega)

theorem rootLoopS_char (g : Game) (c : g.Board) (depth : Int)
    (ms : List g.Move) : ∀ (bm : Option g.Move) (bv : Score)
    (h : List g.Board) (k : Nat),
      rootLoopS g depth ms bm bv (SearchState.mk c h k)
        = ((rootLoopP g c depth ms bm bv k).1,
           (rootLoopP g c depth ms bm bv k).2.1,
           SearchState.mk c h (rootLoopP g c depth ms bm bv k).2.2) := by
  induction ms with
  | nil => intro bm bv h k; simp [rootLoopS, rootLoopP]
  | cons m rest ih =>
    intro bm bv h k
    simp only [rootLoopS, rootLoopP, SearchState.push, rootChildEval]
    rw [minimaxS_char g (g.height (g.push c m) + 1) (g.push c m) (c :: h) k
      (depth - 1) Score.negInf Score.posInf (!g.turn (g.push c m))]
    simp only [SearchState.pop]
    split <;> split <;> exact ih _ _ h _

/-- The stateful _minimax_root is the pure selection function plus a
counter increment: it returns the same move and value, restores the board,
and grows positions_evaluated by the total number of evaluations. -/
theorem minimaxRootS_char (g : Game) (c : g.Board) (h : List g.Board)
    (k : Nat) (depth : Int) :
    minimaxRootS g (SearchState.mk c h k) depth
      = ((minimaxRootP g c depth).1, (minimaxRootP g c depth).2.1,
         SearchState.mk c h (k + (minimaxRootP g c depth).2.2)) := by
  simp only [minimaxRootS, minimaxRootP]
  split
  · rfl
  · rw [rootLoopS_char g c depth _ none _ h k,
      rootLoopP_cnt g c depth _ none _ k]

theorem max_eq_left_of_lt_max {A : Type} [LinearOrder A] {x e : A}
    (h : e < max x e) : max x e = x := by
  rcases max_choice x e with hc | hc
  · exact hc
  · rw [hc] at h
    exact absurd h (lt_irrefl e)

theorem min_eq_left_of_min_lt {A : Type} [LinearOrder A] {x e : A}
    (h : min x e < e) : min x e = x := by
  rcases min_choice x e with hc | hc
  · exact hc
  · rw [hc] at h
    exact absurd h (lt_irrefl e)

theorem foldMax_init_le {M : Type} (v : M → Score) (ms : List M) :
    ∀ s : Score, s ≤ ms.foldl (fun acc m => max acc (v m)) s := by
  induction ms with
  | nil => intro s; simp
  | cons m rest ih =>
    intro s
    rw [List.foldl_cons]
    exact le_trans (le_max_left s (v m)) (ih (max s (v m)))

theorem foldMax_mono {M : Type} (v : M → Score) (ms : List M) :
    ∀ s t : Score, s ≤ t →
      ms.foldl (fun acc m => max acc (v m)) s ≤ ms.foldl (fun acc m => max acc (v m)) t := by
  induction ms with
  | nil => intro s t h; simpa using h
  | cons m rest ih =>
    intro s t h
    rw [List.foldl_cons, List.foldl_cons]
    exact ih _ _ (max_le_max h (le_refl (v m)))

theorem foldMax_pull {M : Type} (v : M → Score) (ms : List M) :
    ∀ s t : Score,
      ms.foldl (fun acc m => max acc (v m)) (max s t)
        = max s (ms.foldl (fun acc m => max acc (v m)) t) := by
  induction ms with
  | nil => intro s t; simp
  | cons m rest ih =>
    intro s t
    rw [List.foldl_cons, List.foldl_cons, max_assoc, ih s (max t (v m))]

theorem foldMin_init_le {M : Type} (v : M → Score) (ms : List M) :
    ∀ s : Score, ms.foldl (fun acc m => min acc (v m)) s ≤ s := by
  induction ms with
  | nil => intro s; simp
  | cons m rest ih =>
    intro s
    rw [List.foldl_cons]
    exact le_trans (ih (min s (v m))) (min_le_left s (v m))

theorem foldMin_mono {M : Type} (v : M → Score) (ms : List M) :
    ∀ s t : Score, s ≤ t →
      ms.foldl (fun acc m => min acc (v m)) s ≤ ms.foldl (fun acc m => min acc (v m)) t := by
  induction ms with
  | nil => intro s t h; simpa using h
  | cons m rest ih =>
    intro s t h
    rw [List.foldl_cons, List.foldl_cons]
    exact ih _ _ (min_le_min h (le_refl (v m)))

theorem foldMin_pull {M : Type} (v : M → Score) (ms : List M) :
    ∀ s t : Score,
      ms.foldl (fun acc m => min acc (v m)) (min s t)
        = min s (ms.foldl (fun acc m => min acc (v m)) t) := by
  induction ms with
  | nil => intro s t; simp
  | cons m rest ih =>
    intro s t
    rw [List.foldl_cons, List.foldl_cons, min_assoc, ih s (min t (v m))]

theorem maxLoopP_ge_init {M : Type} (recP : M → Score → Score × Nat)
    (beta : Score) (ms : List M) : ∀ (me a : Score) (cnt : Nat),
      me ≤ (maxLoopP recP beta ms me a cnt).1 := by
  induction ms with
  | nil => intro me a cnt; simp [maxLoopP]
  | cons m rest ih =>
    intro me a cnt
    simp only [maxLoopP]
    split
    · exact le_max_left me (recP m a).1
    · exact le_trans (le_max_left me (recP m a).1) (ih _ _ _)

theorem minLoopP_le_init {M : Type} (recP : M → Score → Score × Nat)
    (alpha : Score) (ms : List M) : ∀ (me b : Score) (cnt : Nat),
      (minLoopP recP alpha ms me b cnt).1 ≤ me := by
  induction ms with
  | nil => intro me b cnt; simp [minLoopP]
  | cons m rest ih =>
    intro me b cnt
    simp only [minLoopP]
    split
    · exact min_le_left me (recP m b).1
    · exact le_trans (ih _ _ _) (min_le_left me (recP m b).1)

theorem foldMax_split {M : Type} (v : M → Score) (ms : List M) (s : Score) :
    ms.foldl (fun acc m => max acc (v m)) s
      = max s (ms.foldl (fun acc m => max acc (v m)) Score.negInf) := by
  conv_lhs => rw [show s = max s Score.negInf from (max_eq_left (Score.negInf_le s)).symm]
  exact foldMax_pull v ms s Score.negInf

theorem foldMin_split {M : Type} (v : M → Score) (ms : List M) (s : Score) :
    ms.foldl (fun acc m => min acc (v m)) s
      = min s (ms.foldl (fun acc m => min acc (v m)) Score.posInf) := by
  conv_lhs => rw [show s = min s Score.posInf from (min_eq_left (Score.le_posInf s)).symm]
  exact foldMin_pull v ms s Score.posInf

/-- The alpha-beta soundness invariant for the maximizing loop: relative to
the exhaustive fold of the true child values, the loop's result is exact
when it lies strictly inside the window, an upper bound when it fails low,
and a lower bound when it fails high. -/
theorem maxLoopP_inv {M : Type} (recP : M → Score → Score × Nat)
    (v : M → Score) (beta : Score) :
    ∀ ms : List M,
      (∀ m a, m ∈ ms → a < beta →
        (((recP m a).1 ≤ a → v m ≤ (recP m a).1) ∧
         (a < (recP m a).1 → (recP m a).1 < beta → (recP m a).1 = v m) ∧
         (beta ≤ (recP m a).1 → (recP m a).1 ≤ v m))) →
      ∀ (me a : Score) (cnt : Nat), a < beta → me ≤ a →
        (((maxLoopP recP beta ms me a cnt).1 ≤ a →
            ms.foldl (fun acc m => max acc (v m)) me ≤ (maxLoopP recP beta ms me a cnt).1) ∧
         (a < (maxLoopP recP beta ms me a cnt).1 →
            (maxLoopP recP beta ms me a cnt).1 < beta →
            (maxLoopP recP beta ms me a cnt).1 = ms.foldl (fun acc m => max acc (v m)) me) ∧
         (beta ≤ (maxLoopP recP beta ms me a cnt).1 →
            (maxLoopP recP beta ms me a cnt).1 ≤ ms.foldl (fun acc m => max acc (v m)) me)) := by
  intro ms
  induction ms with
  | nil =>
    intro _ me a cnt hab hmea
    simp only [maxLoopP, List.foldl_nil]
    exact ⟨fun _ => le_refl me, fun _ _ => trivial, fun _ => le_refl me⟩
  | cons m rest ih =>
    intro hrec me a cnt hab hmea
    obtain ⟨h1, h2, h3⟩ := hrec m a (List.mem_cons_self m rest) hab
    simp only [maxLoopP, List.foldl_cons]
    split
    case isTrue hbr =>
      have hbe : beta ≤ (recP m a).1 := by
        rcases max_cases a (recP m a).1 with ⟨hm, _⟩ | ⟨hm, _⟩
        · exact absurd hab (not_lt.mpr (hm ▸ hbr))
        · exact hm ▸ hbr
      have hev : (recP m a).1 ≤ v m := h3 hbe
      refine ⟨?_, ?_, ?_⟩
      · intro h
        exact absurd hab
          (not_lt.mpr (hbe.trans ((le_max_right me (recP m a).1).trans h)))
      · intro _ hrb
        exact absurd hrb (not_lt.mpr (hbe.trans (le_max_right me (recP m a).1)))
      · intro _
        exact le_trans (max_le_max (le_refl me) hev)
          (foldMax_init_le v rest (max me (v m)))
    case isFalse hnbr =>
      have hab' : max a (recP m a).1 < beta := not_le.mp hnbr
      have hmea' : max me (recP m a).1 ≤ max a (recP m a).1 :=
        max_le_max hmea (le_refl (recP m a).1)
      obtain ⟨i1, i2, i3⟩ :=
        ih (fun m' a' hm' ha' => hrec m' a' (List.mem_cons_of_mem m hm') ha')
          (max me (recP m a).1) (max a (recP m a).1) (cnt + (recP m a).2) hab' hmea'
      have hge : max me (recP m a).1 ≤
          (maxLoopP recP beta rest (max me (recP m a).1) (max a (recP m a).1)
            (cnt + (recP m a).2)).1 :=
        maxLoopP_ge_init recP beta rest _ _ _
      have her : (recP m a).1 ≤
          (maxLoopP recP beta rest (max me (recP m a).1) (max a (recP m a).1)
            (cnt + (recP m a).2)).1 :=
        (le_max_right me (recP m a).1).trans hge
      have hw'eq : rest.foldl (fun acc m => max acc (v m)) (max me (recP m a).1)
          = max (max me (rest.foldl (fun acc m => max acc (v m)) Score.negInf))
              (recP m a).1 := by
        rw [foldMax_split v rest (max me (recP m a).1), max_assoc,
          max_comm (recP m a).1 (rest.foldl (fun acc m => max acc (v m)) Score.negInf),
          ← max_assoc]
      have hweq : rest.foldl (fun acc m => max acc (v m)) (max me (v m))
          = max (max me (rest.foldl (fun acc m => max acc (v m)) Score.negInf)) (v m) := by
        rw [foldMax_split v rest (max me (v m)), max_assoc,
          max_comm (v m) (rest.foldl (fun acc m => max acc (v m)) Score.negInf),
          ← max_assoc]
      refine ⟨?_, ?_, ?_⟩
      · intro hra
        have hea : (recP m a).1 ≤ a := her.trans hra
        have hva : v m ≤ (recP m a).1 := h1 hea
        have hw' : rest.foldl (fun acc m => max acc (v m)) (max me (v m))
            ≤ rest.foldl (fun acc m => max acc (v m)) (max me (recP m a).1) :=
          foldMax_mono v rest _ _ (max_le_max (le_refl me) hva)
        exact hw'.trans (i1 (hra.trans (le_max_left a (recP m a).1)))
      · intro har hrb
        rcases le_or_lt (recP m a).1 a with hea | hea
        · have hva : v m ≤ (recP m a).1 := h1 hea
          have hr := i2 (lt_of_le_of_lt (max_le (le_refl a) hea) har) hrb
          rw [hr, hw'eq, hweq]
          have hex : (recP m a).1
              < max (max me (rest.foldl (fun acc m => max acc (v m)) Score.negInf))
                  (recP m a).1 := by
            rw [← hw'eq, ← hr]
            exact lt_of_le_of_lt hea har
          have hXe := max_eq_left_of_lt_max hex
          rw [hXe]
          exact (max_eq_left (lt_of_le_of_lt hva (hXe ▸ hex)).le).symm
        · have heb : (recP m a).1 < beta :=
            lt_of_le_of_lt (le_max_right a (recP m a).1) hab'
          have hve : (recP m a).1 = v m := h2 hea heb
          rcases lt_or_le (recP m a).1
              ((maxLoopP recP beta rest (max me (recP m a).1) (max a (recP m a).1)
                (cnt + (recP m a).2)).1) with her2 | hre2
          · have hr := i2 (lt_of_le_of_lt (max_le hea.le (le_refl (recP m a).1)) her2) hrb
            rw [hr, ← hve]
          · have hreq := le_antisymm hre2 her
            have hw'le := i1 (le_trans hre2 (le_max_right a (recP m a).1))
            have hwge : max me (recP m a).1
                ≤ rest.foldl (fun acc m => max acc (v m)) (max me (recP m a).1) :=
              foldMax_init_le v rest _
            have hlw : (maxLoopP recP beta rest (max me (recP m a).1)
                  (max a (recP m a).1) (cnt + (recP m a).2)).1
                ≤ rest.foldl (fun acc m => max acc (v m)) (max me (recP m a).1) := by
              rw [hreq]
              exact (le_max_right me (recP m a).1).trans hwge
            have hweq2 := le_antisymm hlw hw'le
            rw [hweq2, ← hve]
      · intro hbr
        rcases le_or_lt (recP m a).1 a with hea | hea
        · have hva : v m ≤ (recP m a).1 := h1 hea
          have hi := i3 hbr
          have hlt : (recP m a).1
              < rest.foldl (fun acc m => max acc (v m)) (max me (recP m a).1) :=
            lt_of_lt_of_le (lt_of_le_of_lt hea hab) (hbr.trans hi)
          rw [hw'eq] at hi hlt
          rw [max_eq_left_of_lt_max hlt] at hi
          rw [hweq]
          exact hi.trans (le_max_left _ _)
        · have heb : (recP m a).1 < beta :=
            lt_of_le_of_lt (le_max_right a (recP m a).1) hab'
          have hve : (recP m a).1 = v m := h2 hea heb
          have hi := i3 hbr
          rw [← hve]
          exact hi.trans (le_of_eq rfl)

/-- The alpha-beta soundness invariant for the minimizing loop, the order
dual of `maxLoopP_inv`. -/
theorem minLoopP_inv {M : Type} (recP : M → Score → Score × Nat)
    (v : M → Score) (alpha : Score) :
    ∀ ms : List M,
      (∀ m b, m ∈ ms → alpha < b →
        (((recP m b).1 ≤ alpha → v m ≤ (recP m b).1) ∧
         (alpha < (recP m b).1 → (recP m b).1 < b → (recP m b).1 = v m) ∧
         (b ≤ (recP m b).1 → (recP m b).1 ≤ v m))) →
      ∀ (me b : Score) (cnt : Nat), alpha < b → b ≤ me →
        (((minLoopP recP alpha ms me b cnt).1 ≤ alpha →
            ms.foldl (fun acc m => min acc (v m)) me ≤ (minLoopP recP alpha ms me b cnt).1) ∧
         (alpha < (minLoopP recP alpha ms me b cnt).1 →
            (minLoopP recP alpha ms me b cnt).1 < b →
            (minLoopP recP alpha ms me b cnt).1 = ms.foldl (fun acc m => min acc (v m)) me) ∧
         (b ≤ (minLoopP recP alpha ms me b cnt).1 →
            (minLoopP recP alpha ms me b cnt).1 ≤ ms.foldl (fun acc m => min acc (v m)) me)) := by
  intro ms
  induction ms with
  | nil =>
    intro _ me b cnt hab hbme
    simp only [minLoopP, List.foldl_nil]
    exact ⟨fun _ => le_refl me, fun _ _ => trivial, fun _ => le_refl me⟩
  | cons m rest ih =>
    intro hrec me b cnt hab hbme
    obtain ⟨h1, h2, h3⟩ := hrec m b (List.mem_cons_self m rest) hab
    simp only [minLoopP, List.foldl_cons]
    split
    case isTrue hbr =>
      have hae : (recP m b).1 ≤ alpha := by
        rcases min_cases b (recP m b).1 with ⟨hm, _⟩ | ⟨hm, _⟩
        · exact absurd hab (not_lt.mpr (hm ▸ hbr))
        · exact hm ▸ hbr
      have hva : v m ≤ (recP m b).1 := h1 hae
      refine ⟨?_, ?_, ?_⟩
      · intro _
        exact le_trans (foldMin_init_le v rest (min me (v m)))
          (min_le_min (le_refl me) hva)
      · intro har _
        exact absurd har
          (not_lt.mpr ((min_le_right me (recP m b).1).trans hae))
      · intro hbrr
        exact absurd hab
          (not_lt.mpr (hbrr.trans ((min_le_right me (recP m b).1).trans hae)))
    case isFalse hnbr =>
      have hab' : alpha < min b (recP m b).1 := not_le.mp hnbr
      have hmeb' : min b (recP m b).1 ≤ min me (recP m b).1 :=
        min_le_min hbme (le_refl (recP m b).1)
      obtain ⟨i1, i2, i3⟩ :=
        ih (fun m' b' hm' hb' => hrec m' b' (List.mem_cons_of_mem m hm') hb')
          (min me (recP m b).1) (min b (recP m b).1) (cnt + (recP m b).2) hab' hmeb'
      have hle : (minLoopP recP alpha rest (min me (recP m b).1) (min b (recP m b).1)
            (cnt + (recP m b).2)).1 ≤ min me (recP m b).1 :=
        minLoopP_le_init recP alpha rest _ _ _
      have hre : (minLoopP recP alpha rest (min me (recP m b).1) (min b (recP m b).1)
            (cnt + (recP m b).2)).1 ≤ (recP m b).1 :=
        hle.trans (min_le_right me (recP m b).1)
      have hw'eq : rest.foldl (fun acc m => min acc (v m)) (min me (recP m b).1)
          = min (min me (rest.foldl (fun acc m => min acc (v m)) Score.posInf))
              (recP m b).1 := by
        rw [foldMin_split v rest (min me (recP m b).1), min_assoc,
          min_comm (recP m b).1 (rest.foldl (fun acc m => min acc (v m)) Score.posInf),
          ← min_assoc]
      have hweq : rest.foldl (fun acc m => min acc (v m)) (min me (v m))
          = min (min me (rest.foldl (fun acc m => min acc (v m)) Score.posInf)) (v m) := by
        rw [foldMin_split v rest (min me (v m)), min_assoc,
          min_comm (v m) (rest.foldl (fun acc m => min acc (v m)) Score.posInf),
          ← min_assoc]
      refine ⟨?_, ?_, ?_⟩
      · intro hra
        rcases le_or_lt b (recP m b).1 with hbe | hbe
        · have hev : (recP m b).1 ≤ v m := h3 hbe
          have hi := i1 hra
          have hlt : rest.foldl (fun acc m => min acc (v m)) (min me (recP m b).1)
              < (recP m b).1 :=
            lt_of_le_of_lt (hi.trans hra) (lt_of_lt_of_le hab hbe)
          rw [hw'eq] at hi hlt
          rw [min_eq_left_of_min_lt hlt] at hi
          rw [hweq]
          exact (min_le_left _ _).trans hi
        · have hae : alpha < (recP m b).1 := lt_of_lt_of_le hab'
            (min_le_right b (recP m b).1)
          have hve : (recP m b).1 = v m := h2 hae hbe
          rw [← hve]
          exact i1 hra
      · intro har hrb
        rcases le_or_lt b (recP m b).1 with hbe | hbe
        · have hev : (recP m b).1 ≤ v m := h3 hbe
          have hr := i2 har (lt_min hrb (lt_of_lt_of_le hrb hbe))
          rw [hr, hw'eq, hweq]
          have hex : min (min me (rest.foldl (fun acc m => min acc (v m)) Score.posInf))
                (recP m b).1 < (recP m b).1 := by
            rw [← hw'eq, ← hr]
            exact lt_of_lt_of_le hrb hbe
          have hXe := min_eq_left_of_min_lt hex
          rw [hXe]
          exact (min_eq_left (lt_of_lt_of_le (hXe ▸ hex) hev).le).symm
        · have hae : alpha < (recP m b).1 := lt_of_lt_of_le hab'
            (min_le_right b (recP m b).1)
          have hve : (recP m b).1 = v m := h2 hae hbe
          rcases lt_or_le ((minLoopP recP alpha rest (min me (recP m b).1)
              (min b (recP m b).1) (cnt + (recP m b).2)).1) (recP m b).1 with her2 | hre2
          · have hr := i2 har (lt_min (lt_of_lt_of_le her2 hbe.le) her2)
            rw [hr, ← hve]
          · have hreq := le_antisymm hre hre2
            have hw'ge := i3 ((min_le_right b (recP m b).1).trans hre2)
            have hwle : rest.foldl (fun acc m => min acc (v m)) (min me (recP m b).1)
                ≤ (minLoopP recP alpha rest (min me (recP m b).1)
                  (min b (recP m b).1) (cnt + (recP m b).2)).1 := by
              rw [hreq]
              exact (foldMin_init_le v rest _).trans (min_le_right me (recP m b).1)
            have hweq2 := le_antisymm hw'ge hwle
            rw [hweq2, ← hve]
      · intro hbrr
        have hbe : b ≤ (recP m b).1 := hbrr.trans hre
        have hev : (recP m b).1 ≤ v m := h3 hbe
        have hi := i3 ((min_le_left b (recP m b).1).trans hbrr)
        exact hi.trans (foldMin_mono v rest _ _ (min_le_min (le_refl me) hev))

/-- The alpha-beta soundness invariant for the whole search: for every
window with alpha < beta, the pruned value is exact inside the window, an
upper bound of the non-pruned minimax value when it fails low, and a lower
bound when it fails high. -/
theorem abEval_inv (g : Game) : ∀ (fuel : Nat) (b : g.Board) (depth : Int)
    (alpha beta : Score) (mx : Bool), alpha < beta →
    (((abEval g fuel b depth alpha beta mx).1 ≤ alpha →
        npVal g fuel b depth mx ≤ (abEval g fuel b depth alpha beta mx).1) ∧
     (alpha < (abEval g fuel b depth alpha beta mx).1 →
        (abEval g fuel b depth alpha beta mx).1 < beta →
        (abEval g fuel b depth alpha beta mx).1 = npVal g fuel b depth mx) ∧
     (beta ≤ (abEval g fuel b depth alpha beta mx).1 →
        (abEval g fuel b depth alpha beta mx).1 ≤ npVal g fuel b depth mx)) := by
  intro fuel
  induction fuel with
  | zero =>
    intro b depth alpha beta mx hab
    simp only [abEval, npVal]
    exact ⟨fun _ => le_refl _, fun _ _ => trivial, fun _ => le_refl _⟩
  | succ fuel ih =>
    intro b depth alpha beta mx hab
    simp only [abEval, npVal]
    split
    · exact ⟨fun _ => le_refl _, fun _ _ => rfl, fun _ => le_refl _⟩
    · split
      · exact maxLoopP_inv
          (fun m a => abEval g fuel (g.push b m) (depth - 1) a beta false)
          (fun m => npVal g fuel (g.push b m) (depth - 1) false) beta
          (g.legalMoves b)
          (fun m a _ ha => ih (g.push b m) (depth - 1) a beta false ha)
          Score.negInf alpha 1 hab (Score.negInf_le alpha)
      · exact minLoopP_inv
          (fun m bt => abEval g fuel (g.push b m) (depth - 1) alpha bt true)
          (fun m => npVal g fuel (g.push b m) (depth - 1) true) alpha
          (g.legalMoves b)
          (fun m bt _ hbt => ih (g.push b m) (depth - 1) alpha bt true hbt)
          Score.posInf beta 1 hab (Score.le_posInf beta)

/-- With the full window the pruned search computes exactly the non-pruned
minimax value. -/
theorem abEval_full_window (g : Game) (fuel : Nat) (b : g.Board)
    (depth : Int) (mx : Bool) :
    (abEval g fuel b depth Score.negInf Score.posInf mx).1
      = npVal g fuel b depth mx := by
  obtain ⟨h1, h2, h3⟩ :=
    abEval_inv g fuel b depth Score.negInf Score.posInf mx Score.negInf_lt_posInf
  rcases le_or_lt (abEval g fuel b depth Score.negInf Score.posInf mx).1
      Score.negInf with hlo | hlo
  · rw [(Score.le_negInf_iff _).mp hlo]
    exact ((Score.le_negInf_iff _).mp ((h1 hlo).trans hlo)).symm
  · rcases le_or_lt Score.posInf
        (abEval g fuel b depth Score.negInf Score.posInf mx).1 with hhi | hhi
    · have hr := (Score.posInf_le_iff _).mp hhi
      have hnp := (Score.posInf_le_iff _).mp (hhi.trans (h3 hhi))
      rw [hr, hnp]
    · exact h2 hlo hhi

theorem Score.negInf_lt_iff (a : Score) : Score.negInf < a ↔ a ≠ Score.negInf := by
  rw [← not_le, Score.le_negInf_iff]

theorem Score.lt_posInf_iff (a : Score) : a < Score.posInf ↔ a ≠ Score.posInf := by
  rw [← not_le, Score.posInf_le_iff]

theorem mem_sortCapturesFirst (g : Game) (b : g.Board) (ms : List g.Move)
    (m : g.Move) : m ∈ sortCapturesFirst g b ms ↔ m ∈ ms := by
  simp only [sortCapturesFirst, List.mem_append, List.mem_filter]
  constructor
  · rintro (⟨h, _⟩ | ⟨h, _⟩) <;> exact h
  · intro h
    by_cases hc : g.isCapture b m = true
    · exact Or.inl ⟨h, by simp [hc]⟩
    · exact Or.inr ⟨h, by simp [hc]⟩

theorem rootLoopP_eq_NP (g : Game) (c : g.Board) (depth : Int)
    (ms : List g.Move) : ∀ (bm : Option g.Move) (bv : Score) (cnt : Nat),
      ((rootLoopP g c depth ms bm bv cnt).1, (rootLoopP g c depth ms bm bv cnt).2.1)
        = rootLoopNP g c depth ms bm bv := by
  induction ms with
  | nil => intro bm bv cnt; simp [rootLoopP, rootLoopNP]
  | cons m rest ih =>
    intro bm bv cnt
    simp only [rootLoopP, rootLoopNP, rootChildEval]
    rw [abEval_full_window]
    split <;> split <;> exact ih _ _ _

/-- The pure alpha-beta root selection agrees with the exhaustive
non-pruned root selection in both the chosen move and its value. -/
theorem minimaxRootP_eq_NP (g : Game) (c : g.Board) (depth : Int) :
    ((minimaxRootP g c depth).1, (minimaxRootP g c depth).2.1)
      = minimaxRootNP g c depth := by
  simp only [minimaxRootP, minimaxRootNP]
  split
  · rfl
  · exact rootLoopP_eq_NP g c depth _ none _ 0

theorem rootLoopP_some (g : Game) (c : g.Board) (depth : Int)
    (ms : List g.Move) : ∀ (x : g.Move) (bv : Score) (cnt : Nat),
      ∃ y, (rootLoopP g c depth ms (some x) bv cnt).1 = some y := by
  induction ms with
  | nil => intro x bv cnt; exact ⟨x, rfl⟩
  | cons m rest ih =>
    intro x bv cnt
    simp only [rootLoopP]
    split <;> split <;> exact ih _ _ _

theorem rootLoopP_move_mem (g : Game) (c : g.Board) (depth : Int)
    (ms : List g.Move) : ∀ (bm : Option g.Move) (bv : Score) (cnt : Nat)
      (m : g.Move), (rootLoopP g c depth ms bm bv cnt).1 = some m →
      bm = some m ∨ m ∈ ms := by
  induction ms with
  | nil => intro bm bv cnt m h; exact Or.inl h
  | cons m0 rest ih =>
    intro bm bv cnt m h
    simp only [rootLoopP] at h
    split at h <;> split at h <;> rcases ih _ _ _ _ h with hh | hh
    · obtain rfl := Option.some.inj hh
      exact Or.inr (List.mem_cons_self m0 rest)
    · exact Or.inr (List.mem_cons_of_mem m0 hh)
    · exact Or.inl hh
    · exact Or.inr (List.mem_cons_of_mem m0 hh)
    · obtain rfl := Option.some.inj hh
      exact Or.inr (List.mem_cons_self m0 rest)
    · exact Or.inr (List.mem_cons_of_mem m0 hh)
    · exact Or.inl hh
    · exact Or.inr (List.mem_cons_of_mem m0 hh)

theorem rootChildEval_fst (g : Game) (c : g.Board) (depth : Int) (m : g.Move) :
    (rootChildEval g c depth m).1 = rootChildValue g c depth m := rfl

theorem rootLoopP_keep_max (g : Game) (c : g.Board) (depth : Int)
    (hturn : g.turn c = true) (ms : List g.Move) :
    ∀ (bm : Option g.Move) (bv : Score) (cnt : Nat),
      (∀ m ∈ ms, ¬ bv < rootChildValue g c depth m) →
      (rootLoopP g c depth ms bm bv cnt).1 = bm := by
  induction ms with
  | nil => intro bm bv cnt _; rfl
  | cons m0 rest ih =>
    intro bm bv cnt hall
    simp only [rootLoopP, rootChildEval_fst]
    split
    case isTrue h =>
      rw [if_neg (hall m0 (List.mem_cons_self m0 rest))]
      exact ih bm bv _ (fun m hm => hall m (List.mem_cons_of_mem m0 hm))
    case isFalse h => exact absurd hturn h

theorem rootLoopP_keep_min (g : Game) (c : g.Board) (depth : Int)
    (hturn : g.turn c = false) (ms : List g.Move) :
    ∀ (bm : Option g.Move) (bv : Score) (cnt : Nat),
      (∀ m ∈ ms, ¬ rootChildValue g c depth m < bv) →
      (rootLoopP g c depth ms bm bv cnt).1 = bm := by
  induction ms with
  | nil => intro bm bv cnt _; rfl
  | cons m0 rest ih =>
    intro bm bv cnt hall
    simp only [rootLoopP, rootChildEval_fst]
    split
    case isTrue h => exact absurd (hturn ▸ h) (by decide)
    case isFalse h =>
      rw [if_neg (hall m0 (List.mem_cons_self m0 rest))]
      exact ih bm bv _ (fun m hm => hall m (List.mem_cons_of_mem m0 hm))

theorem rootLoopP_select_max (g : Game) (c : g.Board) (depth : Int)
    (hturn : g.turn c = true) (mstar : g.Move) (ms : List g.Move) :
    ∀ (bm : Option g.Move) (bv : Score) (cnt : Nat), mstar ∈ ms →
      (∀ m ∈ ms, m ≠ mstar →
        rootChildValue g c depth m < rootChildValue g c depth mstar) →
      bv < rootChildValue g c depth mstar →
      (rootLoopP g c depth ms bm bv cnt).1 = some mstar := by
  induction ms with
  | nil => intro bm bv cnt hmem; exact absurd hmem (List.not_mem_nil mstar)
  | cons m0 rest ih =>
    intro bm bv cnt hmem hdom hbv
    simp only [rootLoopP, rootChildEval_fst]
    split
    case isFalse h => exact absurd hturn h
    case isTrue h =>
      by_cases hm0 : m0 = mstar
      · subst hm0
        rw [if_pos hbv]
        exact rootLoopP_keep_max g c depth hturn rest (some m0)
          (rootChildValue g c depth m0) _
          (fun m hm => by
            by_cases hmm : m = m0
            · subst hmm; exact lt_irrefl _
            · exact not_lt.mpr
                (le_of_lt (hdom m (List.mem_cons_of_mem m0 hm) hmm)))
      · have hmem' : mstar ∈ rest := by
          rcases List.mem_cons.mp hmem with hh | hh
          · exact absurd hh.symm hm0
          · exact hh
        have hdom' : ∀ m ∈ rest, m ≠ mstar →
            rootChildValue g c depth m < rootChildValue g c depth mstar :=
          fun m hm => hdom m (List.mem_cons_of_mem m0 hm)
        have hlt : rootChildValue g c depth m0 < rootChildValue g c depth mstar :=
          hdom m0 (List.mem_cons_self m0 rest) hm0
        split
        · exact ih (some m0) _ _ hmem' hdom' hlt
        · exact ih bm bv _ hmem' hdom' hbv

theorem rootLoopP_select_min (g : Game) (c : g.Board) (depth : Int)
    (hturn : g.turn c = false) (mstar : g.Move) (ms : List g.Move) :
    ∀ (bm : Option g.Move) (bv : Score) (cnt : Nat), mstar ∈ ms →
      (∀ m ∈ ms, m ≠ mstar →
        rootChildValue g c depth mstar < rootChildValue g c depth m) →
      rootChildValue g c depth mstar < bv →
      (rootLoopP g c depth ms bm bv cnt).1 = some mstar := by
  induction ms with
  | nil => intro bm bv cnt hmem; exact absurd hmem (List.not_mem_nil mstar)
  | cons m0 rest ih =>
    intro bm bv cnt hmem hdom hbv
    simp only [rootLoopP, rootChildEval_fst]
    split
    case isTrue h => exact absurd (hturn ▸ h) (by decide)
    case isFalse h =>
      by_cases hm0 : m0 = mstar
      · subst hm0
        rw [if_pos hbv]
        exact rootLoopP_keep_min g c depth hturn rest (some m0)
          (rootChildValue g c depth m0) _
          (fun m hm => by
            by_cases hmm : m = m0
            · subst hmm; exact lt_irrefl _
            · exact not_lt.mpr
                (le_of_lt (hdom m (List.mem_cons_of_mem m0 hm) hmm)))
      · have hmem' : mstar ∈ rest := by
          rcases List.mem_cons.mp hmem with hh | hh
          · exact absurd hh.symm hm0
          · exact hh
        have hdom' : ∀ m ∈ rest, m ≠ mstar →
            rootChildValue g c depth mstar < rootChildValue g c depth m :=
          fun m hm => hdom m (List.mem_cons_of_mem m0 hm)
        have hlt : rootChildValue g c depth mstar < rootChildValue g c depth m0 :=
          hdom m0 (List.mem_cons_self m0 rest) hm0
        split
        · exact ih (some m0) _ _ hmem' hdom' hlt
        · exact ih bm bv _ hmem' hdom' hbv

theorem rootLoopP_none_iff_max (g : Game) (c : g.Board) (depth : Int)
    (hturn : g.turn c = true) (ms : List g.Move) :
    ∀ (cnt : Nat),
      ((rootLoopP g c depth ms none Score.negInf cnt).1 = none ↔
        ∀ m ∈ ms, rootChildValue g c depth m = Score.negInf) := by
  induction ms with
  | nil => intro cnt; simp [rootLoopP]
  | cons m0 rest ih =>
    intro cnt
    simp only [rootLoopP, rootChildEval_fst]
    split
    case isFalse h => exact absurd hturn h
    case isTrue h =>
      split
      case isTrue hacc =>
        constructor
        · intro hn
          obtain ⟨y, hy⟩ := rootLoopP_some g c depth rest m0 _ _
          rw [hn] at hy
          cases hy
        · intro hall
          exact absurd (hall m0 (List.mem_cons_self m0 rest))
            ((Score.negInf_lt_iff _).mp hacc)
      case isFalse hacc =>
        have hm0 : rootChildValue g c depth m0 = Score.negInf := by
          by_contra hne
          exact hacc ((Score.negInf_lt_iff _).mpr hne)
        rw [ih]
        constructor
        · intro hall m hm
          rcases List.mem_cons.mp hm with hh | hh
          · rw [hh]; exact hm0
          · exact hall m hh
        · intro hall m hm
          exact hall m (List.mem_cons_of_mem m0 hm)

theorem rootLoopP_none_iff_min (g : Game) (c : g.Board) (depth : Int)
    (hturn : g.turn c = false) (ms : List g.Move) :
    ∀ (cnt : Nat),
      ((rootLoopP g c depth ms none Score.posInf cnt).1 = none ↔
        ∀ m ∈ ms, rootChildValue g c depth m = Score.posInf) := by
  induction ms with
  | nil => intro cnt; simp [rootLoopP]
  | cons m0 rest ih =>
    intro cnt
    simp only [rootLoopP, rootChildEval_fst]
    split
    case isTrue h => exact absurd (hturn ▸ h) (by decide)
    case isFalse h =>
      split
      case isTrue hacc =>
        constructor
        · intro hn
          obtain ⟨y, hy⟩ := rootLoopP_some g c depth rest m0 _ _
          rw [hn] at hy
          cases hy
        · intro hall
          exact absurd (hall m0 (List.mem_cons_self m0 rest))
            ((Score.lt_posInf_iff _).mp hacc)
      case isFalse hacc =>
        have hm0 : rootChildValue g c depth m0 = Score.posInf := by
          by_contra hne
          exact hacc ((Score.lt_posInf_iff _).mpr hne)
        rw [ih]
        constructor
        · intro hall m hm
          rcases List.mem_cons.mp hm with hh | hh
          · rw [hh]; exact hm0
          · exact hall m hh
        · intro hall m hm
          exact hall m (List.mem_cons_of_mem m0 hm)

/-- The signed material contribution of one square's content, as the spec
describes it: the piece value, positive for White's pieces and negative for
Black's, 0 for an empty square. -/
def pieceSigned (p : Option Piece) : Int :=
  match p with
  | none => 0
  | some pc => if pc.color then PIECE_VALUES pc.ptype else -(PIECE_VALUES pc.ptype)

theorem materialScore_foldl (g : Game) (b : g.Board) (l : List (Fin 64)) :
    ∀ s : Int,
      l.foldl
        (fun score sq =>
          match g.pieceAt b sq with
          | none => score
          | some piece =>
            if piece.color then score + PIECE_VALUES piece.ptype
            else score - PIECE_VALUES piece.ptype)
        s
      = s + (l.map (fun sq => pieceSigned (g.pieceAt b sq))).sum := by
  induction l with
  | nil => intro s; simp
  | cons sq rest ih =>
    intro s
    rw [List.foldl_cons, ih, List.map_cons, List.sum_cons]
    have hbody : (match g.pieceAt b sq with
        | none => s
        | some piece =>
          if piece.color then s + PIECE_VALUES piece.ptype
          else s - PIECE_VALUES piece.ptype)
        = s + pieceSigned (g.pieceAt b sq) := by
      rcases g.pieceAt b sq with _ | pc
      · simp [pieceSigned]
      · rcases hc : pc.color with _ | _ <;> (simp [pieceSigned, hc]; try ring)
    rw [hbody]
    ring

/-- The material loop computes the sum, over all 64 squares, of the signed
piece values. -/
theorem materialScore_eq_sum (g : Game) (b : g.Board) :
    materialScore g b = ∑ sq : Fin 64, pieceSigned (g.pieceAt b sq) := by
  rw [materialScore, materialScore_foldl, Fin.sum_univ_def, zero_add]

theorem abEval_gameOver (g : Game) (fuel : Nat) (b : g.Board) (depth : Int)
    (alpha beta : Score) (mx : Bool) (h : g.isGameOver b = true) :
    abEval g (fuel + 1) b depth alpha beta mx = (evaluate g b, 1) := by
  simp [abEval, h]

theorem rootLoopP_congr (g : Game) (c : g.Board) (d1 d2 : Int)
    (ms : List g.Move)
    (h : ∀ m ∈ ms, rootChildEval g c d1 m = rootChildEval g c d2 m) :
    ∀ (bm : Option g.Move) (bv : Score) (cnt : Nat),
      rootLoopP g c d1 ms bm bv cnt = rootLoopP g c d2 ms bm bv cnt := by
  induction ms with
  | nil => intro bm bv cnt; rfl
  | cons m0 rest ih =>
    intro bm bv cnt
    simp only [rootLoopP, h m0 (List.mem_cons_self m0 rest)]
    have ih' := ih (fun m hm => h m (List.mem_cons_of_mem m0 hm))
    split <;> split <;> rw [ih']

theorem rootChildValue_depth_one (g : Game) (c : g.Board) (m : g.Move) :
    rootChildValue g c 1 m = evaluate g (g.push c m) := by
  have h10 : (1 : Int) - 1 = 0 := by decide
  simp [rootChildValue, rootChildEval, h10, abEval]

/-- A concrete 2-ply game tree with turn alternation (root White, replies
Black, leaves White), used to exercise the search: root moves lead to
boards 1 and 2; board 1 has replies worth +500 and -500, board 2 has
replies worth +330 and +100. -/
def gC : Game where
  Board := Fin 7
  Move := Fin 2
  legalMoves := fun b => if b.val ≤ 2 then [0, 1] else []
  turn := fun b => decide (b.val = 0 ∨ 3 ≤ b.val)
  push := fun b m =>
    if b.val = 0 then (if m.val = 0 then 1 else 2)
    else if b.val = 1 then (if m.val = 0 then 3 else 4)
    else if b.val = 2 then (if m.val = 0 then 5 else 6)
    else b
  isGameOver := fun _ => false
  isCheckmate := fun _ => false
  isStalemate := fun _ => false
  isInsufficientMaterial := fun _ => false
  isCapture := fun _ _ => false
  pieceAt := fun b sq =>
    if sq.val = 0 then
      if b.val = 3 then some ⟨PieceType.rook, true⟩
      else if b.val = 4 then some ⟨PieceType.rook, false⟩
      else if b.val = 5 then some ⟨PieceType.bishop, true⟩
      else if b.val = 6 then some ⟨PieceType.pawn, true⟩
      else none
    else none
  height := fun b => if b.val = 0 then 2 else if b.val ≤ 2 then 1 else 0
  height_lt := by decide

/-- A concrete forced line: White's only move leads to a position where
Black's only move leads to a checkmate with White to move (evaluation
negative infinity). -/
def gD : Game where
  Board := Fin 3
  Move := Fin 1
  legalMoves := fun b => if b.val ≤ 1 then [0] else []
  turn := fun b => decide (b.val ≠ 1)
  push := fun b _ => if b.val = 0 then 1 else 2
  isGameOver := fun b => decide (b.val = 2)
  isCheckmate := fun b => decide (b.val = 2)
  isStalemate := fun _ => false
  isInsufficientMaterial := fun _ => false
  isCapture := fun _ _ => false
  pieceAt := fun _ _ => none
  height := fun b => 2 - b.val
  height_lt := by decide

/-- A concrete one-move game: the root's single move reaches a game-over
position holding one white pawn (material +100). -/
def gE : Game where
  Board := Fin 2
  Move := Fin 1
  legalMoves := fun b => if b.val = 0 then [0] else []
  turn := fun b => decide (b.val = 0)
  push := fun _ _ => 1
  isGameOver := fun b => decide (b.val = 1)
  isCheckmate := fun _ => false
  isStalemate := fun _ => false
  isInsufficientMaterial := fun _ => false
  isCapture := fun _ _ => false
  pieceAt := fun b sq =>
    if b.val = 1 ∧ sq.val = 0 then some ⟨PieceType.pawn, true⟩ else none
  height := fun b => 1 - b.val
  height_lt := by decide

/-- Four standalone boards exercising the evaluation function: board 0 is
checkmate with White to move, board 1 is stalemate, board 2 holds one
white queen, board 3 is game over without being checkmate, stalemate or
insufficient material (as after the seventy-five-move rule) and holds one
white pawn. -/
def gF : Game where
  Board := Fin 4
  Move := Fin 1
  legalMoves := fun _ => []
  turn := fun _ => true
  push := fun b _ => b
  isGameOver := fun b => decide (b.val ≠ 2)
  isCheckmate := fun b => decide (b.val = 0)
  isStalemate := fun b => decide (b.val = 1)
  isInsufficientMaterial := fun _ => false
  isCapture := fun _ _ => false
  pieceAt := fun b sq =>
    if b.val = 2 ∧ sq.val = 0 then some ⟨PieceType.queen, true⟩
    else if b.val = 3 ∧ sq.val = 0 then some ⟨PieceType.pawn, true⟩
    else none
  height := fun _ => 0
  height_lt := by decide

/-- A concrete one-ply choice for White: move 0 is a capture leading to a
board worth +900, move 1 leads to a board worth +100. -/
def gH : Game where
  Board := Fin 3
  Move := Fin 2
  legalMoves := fun b => if b.val = 0 then [0, 1] else []
  turn := fun b => decide (b.val = 0)
  push := fun b m => if b.val = 0 then (if m.val = 0 then 1 else 2) else b
  isGameOver := fun _ => false
  isCheckmate := fun _ => false
  isStalemate := fun _ => false
  isInsufficientMaterial := fun _ => false
  isCapture := fun b m => decide (b.val = 0 ∧ m.val = 0)
  pieceAt := fun b sq =>
    if b.val = 1 ∧ sq.val = 0 then some ⟨PieceType.queen, true⟩
    else if b.val = 2 ∧ sq.val = 0 then some ⟨PieceType.pawn, true⟩
    else none
  height := fun b => 1 - b.val
  height_lt := by decide

/-- Convenient root search states over the concrete games. -/
def sC : SearchState gC := { cur := (0 : Fin 7), hist := [], counter := 0 }

def sD : SearchState gD := { cur := (0 : Fin 3), hist := [], counter := 0 }

def sE : SearchState gE := { cur := (0 : Fin 2), hist := [], counter := 0 }

def sH : SearchState gH := { cur := (0 : Fin 3), hist := [], counter := 0 }

def sF : SearchState gF := { cur := (3 : Fin 4), hist := [], counter := 5 }

instance : DecidableEq gC.Move := inferInstanceAs (DecidableEq (Fin 2))

instance : DecidableEq gD.Move := inferInstanceAs (DecidableEq (Fin 1))

instance : DecidableEq gE.Move := inferInstanceAs (DecidableEq (Fin 1))

instance : DecidableEq gH.Move := inferInstanceAs (DecidableEq (Fin 2))

/-- Named moves of the concrete games. -/
def mC0 : gC.Move := (0 : Fin 2)

def mC1 : gC.Move := (1 : Fin 2)

def mE0 : gE.Move := (0 : Fin 1)

def mH0 : gH.Move := (0 : Fin 2)

/-- C1: for every game interface, position and depth, the move selected by
the alpha-beta root search (_minimax_root with the beta <= alpha cutoffs)
and the value computed for it equal the move and value of the exhaustive,
non-pruned minimax search of the same depth: pruning never changes the
result. -/
theorem claim1_pruning_equivalence (g : Game) (s : SearchState g) (depth : Int) :
    (minimaxRootS g s depth).1 = (minimaxRootNP g s.cur depth).1 ∧
    (minimaxRootS g s depth).2.1 = (minimaxRootNP g s.cur depth).2 := by
  cases s with
  | mk c h k =>
    dsimp only
    rw [minimaxRootS_char]
    have hp := minimaxRootP_eq_NP g c depth
    exact ⟨congrArg Prod.fst hp, congrArg Prod.snd hp⟩

/-- C2: evidence of the flag desynchronization.  On the concrete 2-ply
tree gC (root White to move, children Black to move) _minimax_root passes
maximizing = not board.turn evaluated after board.push, i.e. maximizing =
true for the Black-to-move children, and therefore selects move 0 with
value 500; a minimax whose flag is synchronized with the side to move
(minimaxRootSynced, the behavior the claim asserts) selects move 1 with
value 100. -/
theorem claim2_flag_desync_eval :
    (minimaxRootS gC sC 2).1 = some mC0 ∧
    (minimaxRootS gC sC 2).2.1 = Score.val 500 ∧
    minimaxRootSynced gC sC.cur 2 = (some mC1, Score.val 100) := by
  decide

/-- C3 counterexample: a position with a legal move at depth 2 from which
_minimax_root returns None: the single line ends in the root side being
checkmated, the child value equals the -infinity sentinel, and the strict
comparison value > best_value never fires. -/
theorem claim3_counterexample :
    gD.legalMoves sD.cur ≠ [] ∧ (minimaxRootS gD sD 2).1 = none := by
  decide

/-- C3 amended: _minimax_root returns None exactly when the position has
no legal moves OR every root move's search value equals the initial
sentinel (-infinity when White is to move, +infinity for Black); in
particular a position with no legal moves yields None at any depth, and a
position with a legal move whose value differs from the sentinel yields a
move. -/
theorem claim3_amended_none_iff (g : Game) (s : SearchState g) (depth : Int) :
    (minimaxRootS g s depth).1 = none ↔
      (g.legalMoves s.cur = [] ∨
        ∀ m ∈ g.legalMoves s.cur,
          rootChildValue g s.cur depth m
            = (if g.turn s.cur then Score.negInf else Score.posInf)) := by
  cases s with
  | mk c h k =>
    dsimp only
    rw [minimaxRootS_char]
    show (minimaxRootP g c depth).1 = none ↔ _
    simp only [minimaxRootP]
    split
    case isTrue hemp =>
      rw [List.isEmpty_iff] at hemp
      exact ⟨fun _ => Or.inl hemp, fun _ => rfl⟩
    case isFalse hemp =>
      have hne : g.legalMoves c ≠ [] := by
        intro hh
        rw [hh] at hemp
        exact hemp rfl
      rw [or_iff_right hne]
      by_cases hturn : g.turn c = true
      · rw [if_pos hturn, rootLoopP_none_iff_max g c depth hturn]
        constructor
        · intro hall m hm
          exact hall m ((mem_sortCapturesFirst g c _ m).mpr hm)
        · intro hall m hm
          exact hall m ((mem_sortCapturesFirst g c _ m).mp hm)
      · have hturnf : g.turn c = false := by
          cases hb : g.turn c
          · rfl
          · exact absurd hb hturn
        rw [if_neg hturn, rootLoopP_none_iff_min g c depth hturnf]
        constructor
        · intro hall m hm
          exact hall m ((mem_sortCapturesFirst g c _ m).mpr hm)
        · intro hall m hm
          exact hall m ((mem_sortCapturesFirst g c _ m).mp hm)

/-- C3 amended, witness: applying the amended theorem to the concrete game
gD shows its None case is realized with a legal move available. -/
theorem claim3_amended_witness : (minimaxRootS gD sD 2).1 = none :=
  (claim3_amended_none_iff gD sD 2).mpr (Or.inr (by decide))

/-- C4: state restoration: after _minimax_root (and after any _minimax
call) the board is exactly as before the call: same current position and
same undo stack, on every path including pruning cutoffs. -/
theorem claim4_state_restoration (g : Game) (s : SearchState g) (depth : Int) :
    ((minimaxRootS g s depth).2.2.cur = s.cur ∧
     (minimaxRootS g s depth).2.2.hist = s.hist) ∧
    (∀ (fuel : Nat) (d : Int) (alpha beta : Score) (mx : Bool),
      (minimaxS g fuel s d alpha beta mx).2.cur = s.cur ∧
      (minimaxS g fuel s d alpha beta mx).2.hist = s.hist) := by
  cases s with
  | mk c h k =>
    dsimp only
    constructor
    · rw [minimaxRootS_char]
      exact ⟨rfl, rfl⟩
    · intro fuel d alpha beta mx
      rw [minimaxS_char]
      exact ⟨rfl, rfl⟩

/-- C5: _evaluate returns -infinity at a checkmate with White (the
first-moving side) to move and +infinity at a checkmate with Black to
move; exactly 0 at a stalemate or insufficient-material position that is
not checkmate; and otherwise the sum over all 64 squares of the fixed
piece values, positive for White's pieces and negative for Black's. -/
theorem claim5_evaluate_cases (g : Game) (b : g.Board) :
    (g.isCheckmate b = true →
      evaluate g b = (if g.turn b then Score.negInf else Score.posInf)) ∧
    (g.isCheckmate b = false →
      (g.isStalemate b = true ∨ g.isInsufficientMaterial b = true) →
      evaluate g b = Score.val 0) ∧
    (g.isCheckmate b = false → g.isStalemate b = false →
      g.isInsufficientMaterial b = false →
      evaluate g b = Score.val (∑ sq : Fin 64, pieceSigned (g.pieceAt b sq))) := by
  refine ⟨?_, ?_, ?_⟩
  · intro h
    simp [evaluate, h]
  · intro h hd
    rcases hd with hd | hd <;> simp [evaluate, h, hd]
  · intro h h1 h2
    simp [evaluate, h, h1, h2, materialScore_eq_sum]

/-- C5 witness: the three branches realized on the concrete boards of gF
(checkmate with White to move, stalemate, a lone white queen worth 900). -/
theorem claim5_evaluate_cases_witness :
    evaluate gF (0 : Fin 4) = (if gF.turn (0 : Fin 4) then Score.negInf else Score.posInf) ∧
    evaluate gF (1 : Fin 4) = Score.val 0 ∧
    evaluate gF (2 : Fin 4)
      = Score.val (∑ sq : Fin 64, pieceSigned (gF.pieceAt (2 : Fin 4) sq)) :=
  ⟨(claim5_evaluate_cases gF (0 : Fin 4)).1 (by decide),
   (claim5_evaluate_cases gF (1 : Fin 4)).2.1 (by decide) (Or.inl (by decide)),
   (claim5_evaluate_cases gF (2 : Fin 4)).2.2 (by decide) (by decide) (by decide)⟩

/-- C6 counterexample: depth 0 does not degrade to an immediate static
evaluation with no move selection: on the concrete game gE, _minimax_root
at depth 0 still recurses into the root move (with depth -1) and returns
that move rather than no move. -/
theorem claim6_counterexample : ¬ (minimaxRootS gE sE 0).1 = none := by
  decide

/-- C6 amended: a root call with depth <= 0 does not short-circuit: the
base case of _minimax tests depth == 0 exactly, so depth 0 recurses into
every root move with depth -1 and stops only at game-over positions; in
particular when every root child is game over, depth 0 behaves exactly
like depth 1 and still selects a move. -/
theorem claim6_amended_depth_zero (g : Game) (s : SearchState g)
    (hterm : ∀ m ∈ g.legalMoves s.cur, g.isGameOver (g.push s.cur m) = true) :
    minimaxRootS g s 0 = minimaxRootS g s 1 := by
  cases s with
  | mk c h k =>
    dsimp only at hterm ⊢
    rw [minimaxRootS_char, minimaxRootS_char]
    have hp : minimaxRootP g c 0 = minimaxRootP g c 1 := by
      simp only [minimaxRootP]
      split
      · rfl
      · refine rootLoopP_congr g c 0 1 _ (fun m hm => ?_) none _ 0
        have hg := hterm m ((mem_sortCapturesFirst g c _ m).mp hm)
        simp only [rootChildEval]
        rw [show (0 : Int) - 1 = -1 from by decide,
          show (1 : Int) - 1 = 0 from by decide,
          abEval_gameOver g _ _ _ _ _ _ hg, abEval_gameOver g _ _ _ _ _ _ hg]
    rw [hp]

/-- C6 amended, witness: on gE every root child is game over and the
depth-0 call coincides with the depth-1 call (and returns a move, by the
counterexample above). -/
theorem claim6_amended_depth_zero_witness :
    minimaxRootS gE sE 0 = minimaxRootS gE sE 1 :=
  claim6_amended_depth_zero gE sE (by decide)

/-- C7: determinism of the fallback path of get_best_move: a second call
on the state left by a first call returns the same move and leaves the
same positions_evaluated value, because the counter is reset to 0 at the
start of each call and the board is restored; the output is a function of
the position alone. -/
theorem claim7_determinism (g : Game) (s : SearchState g) :
    (getBestMoveFallback g (getBestMoveFallback g s).2).1
      = (getBestMoveFallback g s).1 ∧
    (getBestMoveFallback g (getBestMoveFallback g s).2).2.counter
      = (getBestMoveFallback g s).2.counter := by
  cases s with
  | mk c h k =>
    simp only [getBestMoveFallback, minimaxRootS_char]
    constructor <;> first | rfl | trivial

/-- C8: at depth 1, when one legal move's one-ply evaluation strictly
dominates every other root move's (the rendering of "captures an
undefended queen with a pawn and no other move gains comparable
material") and is not the initialization sentinel, _minimax_root returns
exactly that move. -/
theorem claim8_capture_selected (g : Game) (s : SearchState g) (mstar : g.Move)
    (hmem : mstar ∈ g.legalMoves s.cur)
    (hdom : ∀ m ∈ g.legalMoves s.cur, m ≠ mstar →
      (if g.turn s.cur = true then
        evaluate g (g.push s.cur m) < evaluate g (g.push s.cur mstar)
       else
        evaluate g (g.push s.cur mstar) < evaluate g (g.push s.cur m)))
    (hfin : if g.turn s.cur = true then
        evaluate g (g.push s.cur mstar) ≠ Score.negInf
      else evaluate g (g.push s.cur mstar) ≠ Score.posInf) :
    (minimaxRootS g s 1).1 = some mstar := by
  cases s with
  | mk c h k =>
    dsimp only at hmem hdom hfin ⊢
    rw [minimaxRootS_char]
    show (minimaxRootP g c 1).1 = some mstar
    simp only [minimaxRootP]
    split
    case isTrue hemp =>
      rw [List.isEmpty_iff] at hemp
      rw [hemp] at hmem
      exact absurd hmem (List.not_mem_nil mstar)
    case isFalse hemp =>
      by_cases hturn : g.turn c = true
      · simp only [if_pos hturn] at hdom hfin
        rw [if_pos hturn]
        refine rootLoopP_select_max g c 1 hturn mstar _ none _ 0 ?_ ?_ ?_
        · exact (mem_sortCapturesFirst g c _ mstar).mpr hmem
        · intro m hm hne
          rw [rootChildValue_depth_one, rootChildValue_depth_one]
          exact hdom m ((mem_sortCapturesFirst g c _ m).mp hm) hne
        · rw [rootChildValue_depth_one]
          exact (Score.negInf_lt_iff _).mpr hfin
      · have hturnf : g.turn c = false := by
          cases hb : g.turn c
          · rfl
          · exact absurd hb hturn
        simp only [if_neg hturn] at hdom hfin
        rw [if_neg hturn]
        refine rootLoopP_select_min g c 1 hturnf mstar _ none _ 0 ?_ ?_ ?_
        · exact (mem_sortCapturesFirst g c _ mstar).mpr hmem
        · intro m hm hne
          rw [rootChildValue_depth_one, rootChildValue_depth_one]
          exact hdom m ((mem_sortCapturesFirst g c _ m).mp hm) hne
        · rw [rootChildValue_depth_one]
          exact (Score.lt_posInf_iff _).mpr hfin

/-- C8 witness: on gH the capture (move 0, reaching a board worth 900)
strictly dominates move 1 (worth 100) and is selected at depth 1. -/
theorem claim8_capture_selected_witness :
    (minimaxRootS gH sH 1).1 = some mH0 :=
  claim8_capture_selected gH sH mH0 (by decide) (by decide) (by decide)

/-- C9: whenever _minimax_root returns a move, that move belongs to the
root position's legal move list. -/
theorem claim9_returned_move_legal (g : Game) (s : SearchState g)
    (depth : Int) (m : g.Move)
    (hret : (minimaxRootS g s depth).1 = some m) :
    m ∈ g.legalMoves s.cur := by
  cases s with
  | mk c h k =>
    dsimp only at hret ⊢
    rw [minimaxRootS_char] at hret
    have hret' : (minimaxRootP g c depth).1 = some m := hret
    simp only [minimaxRootP] at hret'
    split at hret'
    · cases hret'
    · rcases rootLoopP_move_mem g c depth _ _ _ _ _ hret' with hh | hh
      · cases hh
      · exact (mem_sortCapturesFirst g c _ m).mp hh

/-- C9 witness: on gE the depth-1 root call returns move 0, which the
theorem certifies to be a legal root move. -/
theorem claim9_returned_move_legal_witness :
    mE0 ∈ gE.legalMoves sE.cur :=
  claim9_returned_move_legal gE sE 1 mE0 (by decide)

/-- C10: at a position that is game over without being checkmate,
stalemate or insufficient material (e.g. the seventy-five-move rule),
_minimax short-circuits (one counter increment, no recursion, state
untouched) and returns the signed material sum, not 0. -/
theorem claim10_other_gameover_material (g : Game) (fuel : Nat)
    (s : SearchState g) (depth : Int) (alpha beta : Score) (mx : Bool)
    (hover : g.isGameOver s.cur = true) (hmate : g.isCheckmate s.cur = false)
    (hstale : g.isStalemate s.cur = false)
    (hins : g.isInsufficientMaterial s.cur = false) :
    minimaxS g (fuel + 1) s depth alpha beta mx
      = (Score.val (materialScore g s.cur),
         { s with counter := s.counter + 1 }) := by
  simp only [minimaxS]
  rw [if_pos (Or.inr hover)]
  simp [evaluate, hmate, hstale, hins]

/-- C10 witness: board 3 of gF is game over with none of the three flags
set and one white pawn; the search base case returns its material sum 100
(not 0) and bumps the counter once. -/
theorem claim10_other_gameover_material_witness :
    minimaxS gF 1 sF 7 Score.negInf Score.posInf true
      = (Score.val (materialScore gF sF.cur),
         { sF with counter := sF.counter + 1 }) ∧
    materialScore gF sF.cur = 100 :=
  ⟨claim10_other_gameover_material gF 0 sF 7 Score.negInf Score.posInf true
      (by decide) (by decide) (by decide) (by decide),
   by decide⟩
